import Mathlib

/-!
Verification development for the bank-statement ingestion pipeline of the
Nudistracker repository (src/App.tsx).  The TypeScript helper functions
`normalizeString`, `parseDate`, `parseAmount`, `autoCategorizeTransaction`,
the row-processing step of `handleProcessMappedFile`, and
`handleFinalizeStaging` are shallowly embedded as executable Lean
definitions.  JavaScript numbers are modelled as exact rationals (`ℚ`),
JavaScript strings as Lean `String`s, and heterogeneous spreadsheet cell
values as the inductive type `CellValue`.  Unicode lower-casing and NFD
decomposition are modelled by explicit tables covering the Latin repertoire
the application works with (Spanish text); characters outside the tables
are left unchanged, which matches `toLowerCase`/`normalize("NFD")` on the
ASCII and Latin-1 characters that actually occur.
-/

namespace Nudistracker

/-- The two regional conventions of the `NumberFormat` type in src/App.tsx
(`'eur' | 'usa'`). -/
inductive NumberFormat where
  | eur : NumberFormat
  | usa : NumberFormat
deriving DecidableEq, Repr

/-- Model of a JavaScript `Date` object by its observable local-time getters:
`getDate()`, `getMonth()`, `getFullYear()` and whether `getTime()` is a real
number (`valid = false` models an Invalid Date object). -/
structure JSDate where
  day : ℕ
  month0 : ℕ
  year : ℕ
  valid : Bool
deriving DecidableEq, Repr

/-- A heterogeneously-typed spreadsheet cell value as it reaches the helper
functions of src/App.tsx: a string, a finite number, `NaN`, a `Date` object,
`null`, `undefined`, or a boolean. -/
inductive CellValue where
  | str : String → CellValue
  | num : ℚ → CellValue
  | nan : CellValue
  | dateVal : JSDate → CellValue
  | null : CellValue
  | undef : CellValue
  | boolVal : Bool → CellValue
deriving DecidableEq, Repr

/-- JavaScript truthiness of a cell value (`Boolean(v)`): `""`, `0`, `NaN`,
`null`, `undefined` and `false` are falsy, all other values (including every
`Date` object) are truthy. -/
def jsTruthy : CellValue → Bool
  | .str s => !(s = "")
  | .num q => !(q = 0)
  | .nan => false
  | .dateVal _ => true
  | .null => false
  | .undef => false
  | .boolVal b => b

/-- Model of `String.prototype.trim`: strip whitespace from both ends
(modelled for the ASCII whitespace characters; JavaScript additionally
strips exotic Unicode spaces, which the theorems below never involve). -/
def jsTrim (s : String) : String :=
  String.mk
    (((s.data.dropWhile Char.isWhitespace).reverse.dropWhile
      Char.isWhitespace).reverse)

/-- Association-list lookup used for the finite character tables below. -/
def tableGet {α : Type} : List (Char × α) → Char → Option α
  | [], _ => none
  | (k, v) :: ps, c => if c = k then some v else tableGet ps c

/-- Case-mapping table modelling `String.prototype.toLowerCase` on the
characters the application's Spanish texts use: ASCII capitals and the
precomposed accented Latin capitals.  Characters not in the table are left
unchanged by `toLowerChar`. -/
def lowerMap : List (Char × Char) :=
  [('A','a'),('B','b'),('C','c'),('D','d'),('E','e'),('F','f'),('G','g'),
   ('H','h'),('I','i'),('J','j'),('K','k'),('L','l'),('M','m'),('N','n'),
   ('O','o'),('P','p'),('Q','q'),('R','r'),('S','s'),('T','t'),('U','u'),
   ('V','v'),('W','w'),('X','x'),('Y','y'),('Z','z'),
   ('Á','á'),('À','à'),('Â','â'),('Ä','ä'),('É','é'),('È','è'),('Ê','ê'),
   ('Ë','ë'),('Í','í'),('Ì','ì'),('Î','î'),('Ï','ï'),('Ó','ó'),('Ò','ò'),
   ('Ô','ô'),('Ö','ö'),('Ú','ú'),('Ù','ù'),('Û','û'),('Ü','ü'),('Ñ','ñ'),
   ('Ç','ç')]

/-- Per-character lower-casing (see `lowerMap`). -/
def toLowerChar (c : Char) : Char := (tableGet lowerMap c).getD c

/-- Canonical-decomposition table modelling `normalize("NFD")` on the
precomposed accented lowercase Latin letters: each decomposes into its base
letter followed by a combining mark in U+0300–U+036F.  Characters not in the
table decompose to themselves. -/
def nfdMap : List (Char × List Char) :=
  [('á',['a','́']),('à',['a','̀']),('â',['a','̂']),
   ('ä',['a','̈']),('é',['e','́']),('è',['e','̀']),
   ('ê',['e','̂']),('ë',['e','̈']),('í',['i','́']),
   ('ì',['i','̀']),('î',['i','̂']),('ï',['i','̈']),
   ('ó',['o','́']),('ò',['o','̀']),('ô',['o','̂']),
   ('ö',['o','̈']),('ú',['u','́']),('ù',['u','̀']),
   ('û',['u','̂']),('ü',['u','̈']),('ñ',['n','̃']),
   ('ç',['c','̧'])]

/-- Per-character NFD decomposition (see `nfdMap`). -/
def nfdChar (c : Char) : List Char := (tableGet nfdMap c).getD [c]

/-- The combining diacritical marks the source strips:
`replace(/[̀-ͯ]/g, "")`. -/
def isCombiningMark (c : Char) : Bool :=
  0x300 ≤ c.toNat && c.toNat ≤ 0x36f

/-- Embedding of `normalizeString` from src/App.tsx: lower-case, decompose to
NFD, then delete the combining marks U+0300–U+036F.  The `if` branch mirrors
the `if (!str) return ''` guard for the empty string. -/
def normalizeString (s : String) : String :=
  if s = "" then ""
  else String.mk ((((s.data.map toLowerChar).flatMap nfdChar)).filter
    (fun c => !isCombiningMark c))

/-- Embedding of `normalizeString` as called on a possibly-`null` argument:
the `if (!str) return ''` guard turns `null` into the empty string. -/
def normalizeStringNullable : Option String → String
  | none => ""
  | some s => normalizeString s

/-- Gregorian leap-year test (the rule `new Date` uses). -/
def isLeapYear (y : ℕ) : Bool :=
  y % 4 = 0 && (!(y % 100 = 0) || y % 400 = 0)

/-- Number of days of month `m` (1-based) of year `y` in the proleptic
Gregorian calendar. -/
def daysInMonth (y m : ℕ) : ℕ :=
  if m = 2 then (if isLeapYear y then 29 else 28)
  else if m = 4 ∨ m = 6 ∨ m = 9 ∨ m = 11 then 30
  else 31

/-- Days from 1970-01-01 to the civil date `y-m-d` (Gregorian), the quantity
underlying JavaScript `Date` arithmetic. -/
def daysFromCivil (y : ℤ) (m d : ℕ) : ℤ :=
  let y' : ℤ := if m ≤ 2 then y - 1 else y
  let era : ℤ := (if 0 ≤ y' then y' else y' - 399) / 400
  let yoe : ℤ := y' - era * 400
  let mp : ℤ := ((m : ℤ) + 9) % 12
  let doy : ℤ := (153 * mp + 2) / 5 + (d : ℤ) - 1
  let doe : ℤ := yoe * 365 + yoe / 4 - yoe / 100 + doy
  era * 146097 + doe - 719468

/-- Inverse of `daysFromCivil`: the civil date `(year, month, day)` lying
`z` days after 1970-01-01. -/
def civilFromDays (z : ℤ) : ℤ × ℕ × ℕ :=
  let z' : ℤ := z + 719468
  let era : ℤ := (if 0 ≤ z' then z' else z' - 146096) / 146097
  let doe : ℤ := z' - era * 146097
  let yoe : ℤ := (doe - doe / 1460 + doe / 36524 - doe / 146096) / 365
  let y : ℤ := yoe + era * 400
  let doy : ℤ := doe - (365 * yoe + yoe / 4 - yoe / 100)
  let mp : ℤ := (5 * doy + 2) / 153
  let d : ℤ := doy - (153 * mp + 2) / 5 + 1
  let m : ℤ := if mp < 10 then mp + 3 else mp - 9
  (if m ≤ 2 then y + 1 else y, m.toNat, d.toNat)

/-- Model of `n.toString().padStart(2, '0')` for a natural number. -/
def pad2 (n : ℕ) : String :=
  if n < 10 then "0" ++ Nat.repr n else Nat.repr n

/-- The formatted-date template every successful branch of `parseDate`
returns: padded day, padded month, year as printed. -/
def fmtDMY (day month year : ℕ) : String :=
  pad2 day ++ "/" ++ pad2 month ++ "/" ++ Nat.repr year

/-- Successive decimal digits of the fractional part of a rational in
`[0, 1)`, stopping at a zero remainder or after `fuel` digits. -/
def decimalFracChars : ℕ → ℚ → List Char
  | 0, _ => []
  | fuel + 1, q =>
      if q = 0 then []
      else Char.ofNat (48 + (⌊q * 10⌋).toNat) ::
        decimalFracChars fuel (q * 10 - (⌊q * 10⌋ : ℚ))

/-- Model of `String(x)` for a finite JavaScript number, printing the exact
decimal expansion (up to 20 fractional digits).  This approximates the
shortest-round-trip printing of IEEE doubles; no theorem below depends on
the exact text it produces for a non-integer. -/
def jsNumToString (q : ℚ) : String :=
  let sgn := if q < 0 then "-" else ""
  let a := |q|
  let ip := (⌊a⌋).toNat
  let fr := a - (⌊a⌋ : ℚ)
  if fr = 0 then sgn ++ Nat.repr ip
  else sgn ++ Nat.repr ip ++ "." ++ String.mk (decimalFracChars 20 fr)

/-- Three-letter English weekday abbreviations, indexed Sunday-first as by
`Date.prototype.toString`. -/
def weekdayNames : List String :=
  ["Sun", "Mon", "Tue", "Wed", "Thu", "Fri", "Sat"]

/-- Three-letter English month abbreviations, indexed from 0 as by
`Date.prototype.getMonth`. -/
def monthNames : List String :=
  ["Jan", "Feb", "Mar", "Apr", "May", "Jun",
   "Jul", "Aug", "Sep", "Oct", "Nov", "Dec"]

/-- Model of `String(d)` for a `Date` object (time-of-day fields are not part
of the `JSDate` model and are printed as midnight UTC).  An Invalid Date
prints as `"Invalid Date"`.  No theorem below depends on the exact text. -/
def jsDateToString (d : JSDate) : String :=
  if !d.valid then "Invalid Date"
  else
    let dow := ((daysFromCivil (d.year : ℤ) (d.month0 + 1) d.day + 4) % 7).toNat
    (weekdayNames.getD dow "") ++ " " ++ (monthNames.getD d.month0 "") ++ " " ++
      pad2 d.day ++ " " ++ Nat.repr d.year ++
      " 00:00:00 GMT+0000 (Coordinated Universal Time)"

/-- Model of JavaScript `String(v)` on a cell value. -/
def jsToStr : CellValue → String
  | .str s => s
  | .num q => jsNumToString q
  | .nan => "NaN"
  | .dateVal d => jsDateToString d
  | .null => "null"
  | .undef => "undefined"
  | .boolVal b => if b then "true" else "false"

/-- The characters `parseAmount`'s cleanup keeps:
`replace(/[^\d.,-]/g, '')`. -/
def keepAmountChar (c : Char) : Bool :=
  c.isDigit || c = '.' || c = ',' || c = '-'

/-- Model of `s.replace(/X/g, '')` for a single character `X`: delete every
occurrence. -/
def removeAll (c : Char) (l : List Char) : List Char :=
  l.filter (fun x => !(x = c))

/-- Model of `s.replace('X', 'Y')` with string patterns: replace only the
first occurrence. -/
def replaceFirst (c r : Char) : List Char → List Char
  | [] => []
  | x :: xs => if x = c then r :: xs else x :: replaceFirst c r xs

/-- The quantity `s.length - s.lastIndexOf(c) - 1` (number of characters
after the last occurrence of `c`), used by the separator-position
heuristics.  Only consulted when `c` occurs in the list. -/
def digitsAfterLast (c : Char) (l : List Char) : ℕ :=
  (l.reverse.takeWhile (fun x => !(x = c))).length

/-- Model of the anchored minus-sign strip (the `replace` with the regex
`^-` and an empty replacement): drop one leading minus sign. -/
def dropLeadingMinus : List Char → List Char
  | '-' :: xs => xs
  | l => l

/-- Numeric value of a list of decimal digit characters (`parseInt` on an
all-digit string). -/
def digitsToNat (l : List Char) : ℕ :=
  l.foldl (fun a c => 10 * a + (c.toNat - 48)) 0

/-- Numeral body of the `parseFloat` model, after the optional sign: an
integer digit run, optionally a dot and a fraction digit run; at least one
digit must be present, else the result is the `NaN` marker `none`; parsing
stops at the first character that does not extend the numeral.  The value
is the numeral's exact rational
`sign * (intpart + fracpart / 10 ^ fracdigits)`, assembled through
`mkRat`. -/
def parseFloatAfterSign (sgn : ℤ) (rest : List Char) : Option ℚ :=
  let ip := rest.takeWhile Char.isDigit
  let rest2 := rest.drop ip.length
  match rest2 with
  | '.' :: xs =>
      let fp := xs.takeWhile Char.isDigit
      if ip = [] ∧ fp = [] then none
      else
        some (mkRat (sgn * ((digitsToNat ip : ℤ) * 10 ^ fp.length + (digitsToNat fp : ℤ)))
          (10 ^ fp.length))
  | _ => if ip = [] then none else some (mkRat (sgn * (digitsToNat ip : ℤ)) 1)

/-- Model of JavaScript `parseFloat` on the strings `parseAmount` feeds it:
after cleanup those consist only of digits, `.`, `,`, `-` (and the dead `+`
check), so no exponent, `Infinity` or whitespace form can occur.  An
optional leading `-` or `+` is consumed first; `none` models a `NaN`
result. -/
def parseFloatJS (l : List Char) : Option ℚ :=
  match l with
  | '-' :: xs => parseFloatAfterSign (-1) xs
  | '+' :: xs => parseFloatAfterSign 1 xs
  | xs => parseFloatAfterSign 1 xs

/-- The separator-resolution step of `parseAmount` (src/App.tsx lines
172–239): given the unsigned cleaned magnitude `absStr`, produce the
canonical numeral string handed to `parseFloat`. -/
def resolveSeparators (format : NumberFormat) (absStr : List Char) : List Char :=
  let hasDot := absStr.contains '.'
  let hasComma := absStr.contains ','
  match format with
  | .eur =>
      if hasDot && hasComma then
        replaceFirst ',' '.' (removeAll '.' absStr)
      else if hasComma then
        let digitsAfterComma := digitsAfterLast ',' absStr
        if digitsAfterComma = 2 ∨ digitsAfterComma = 3 then
          replaceFirst ',' '.' absStr
        else removeAll ',' absStr
      else if hasDot then
        let digitsAfterDot := digitsAfterLast '.' absStr
        let dotCount := absStr.count '.'
        if 1 < dotCount ∨ (digitsAfterDot = 3 ∧ 7 < absStr.length) then
          removeAll '.' absStr
        else absStr
      else absStr
  | .usa =>
      if hasDot && hasComma then
        removeAll ',' absStr
      else if hasComma then
        let digitsAfterComma := digitsAfterLast ',' absStr
        let commaCount := absStr.count ','
        if 1 < commaCount ∨ (digitsAfterComma = 3 ∧ 7 < absStr.length) then
          removeAll ',' absStr
        else if digitsAfterComma = 2 then
          replaceFirst ',' '.' absStr
        else removeAll ',' absStr
      else absStr

/-- String path of `parseAmount` from src/App.tsx (lines 151–245): the
already-stringified value is trimmed, cleaned down to `[\d.,-]`, split into
sign and magnitude, separator-resolved per the locale, and handed to
`parseFloat`, a `NaN` outcome yielding 0.  Together with the dispatch in
`parseAmount` below this embeds the whole function: `null`, `undefined` and
`''` return 0, a finite number is returned directly, and `NaN` becomes 0. -/
def parseAmountString (str0 : String) (format : NumberFormat) : ℚ :=
  let str := jsTrim str0
  if str = "" then 0
  else
    let cleaned := str.data.filter keepAmountChar
    if cleaned = [] ∨ cleaned = ['-'] ∨ cleaned = ['+'] then 0
    else
      let isNegative := cleaned.head? = some '-'
      let absStr := dropLeadingMinus cleaned
      let parsableStr := resolveSeparators format absStr
      match parseFloatJS parsableStr with
      | none => 0
      | some r => if isNegative then -r else r

/-- Entry dispatch of `parseAmount` over the cell value's type (the
stringify-and-clean path lives in `parseAmountString`). -/
def parseAmount (numStr : CellValue) (format : NumberFormat) : ℚ :=
  if numStr = .null ∨ numStr = .undef ∨ numStr = .str "" then 0
  else
    match numStr with
    | .num q => q
    | .nan => 0
    | v => parseAmountString (jsToStr v) format

/-- The separator class `[\/\-]` of the two date regexes. -/
def isSepChar (c : Char) : Bool := c = '/' || c = '-'

/-- Shared skeleton of the two date regexes: the whole string must be a
digit run, a separator, a digit run, a separator and a digit run; returns
the three runs (the `split(/[\/\-]/)` parts).  Run-length constraints are
checked by the individual matchers. -/
def sepSplit3 (l : List Char) : Option (List Char × List Char × List Char) :=
  let a := l.takeWhile Char.isDigit
  match l.drop a.length with
  | c1 :: r2 =>
      if isSepChar c1 then
        let b := r2.takeWhile Char.isDigit
        match r2.drop b.length with
        | c2 :: r4 =>
            if isSepChar c2 then
              let d := r4.takeWhile Char.isDigit
              if r4.drop d.length = [] then some (a, b, d) else none
            else none
        | [] => none
      else none
  | [] => none

/-- The ISO pattern `^\d{4}[\/\-]\d{1,2}[\/\-]\d{1,2}$` together with the
`parseInt` of its three parts, as `(year, month, day)`. -/
def isoMatch (l : List Char) : Option (ℕ × ℕ × ℕ) :=
  match sepSplit3 l with
  | some (a, b, d) =>
      if a.length = 4 ∧ (1 ≤ b.length ∧ b.length ≤ 2) ∧
          (1 ≤ d.length ∧ d.length ≤ 2) then
        some (digitsToNat a, digitsToNat b, digitsToNat d)
      else none
  | none => none

/-- The day/month pattern `^\d{1,2}[\/\-]\d{1,2}[\/\-]\d{2,4}$` together
with the `parseInt` of its three parts, as `(num1, num2, rawYear)`. -/
def dmyMatch (l : List Char) : Option (ℕ × ℕ × ℕ) :=
  match sepSplit3 l with
  | some (a, b, d) =>
      if (1 ≤ a.length ∧ a.length ≤ 2) ∧ (1 ≤ b.length ∧ b.length ≤ 2) ∧
          (2 ≤ d.length ∧ d.length ≤ 4) then
        some (digitsToNat a, digitsToNat b, digitsToNat d)
      else none
  | none => none

/-- Field normalization performed by `new Date(year, month0, day)` for the
argument ranges reached here (`month0 ≤ 11`, `1 ≤ day ≤ 31`): a day count
exceeding the month's length carries into the following month. -/
def jsMakeDate (y m0 d : ℕ) : ℕ × ℕ × ℕ :=
  let m := m0 + 1
  if d ≤ daysInMonth y m then (y, m0, d)
  else if m = 12 then (y + 1, 0, d - daysInMonth y m)
  else (y, m0 + 1, d - daysInMonth y m)

/-- The guard-construct-compare-format step shared by every string branch of
`parseDate`: the range guard on day/month/year, then `new Date(year,
month-1, day)` must report exactly the fields it was given; on success the
formatted date is produced. -/
def checkAndFormat (day month year : ℕ) : Option String :=
  if 1 ≤ day ∧ day ≤ 31 ∧ 1 ≤ month ∧ month ≤ 12 ∧
      1900 ≤ year ∧ year ≤ 2100 then
    if jsMakeDate year (month - 1) day = (year, month - 1, day) then
      some (fmtDMY day month year)
    else none
  else none

/-- Two-digit-year widening of `parseDate` (src/App.tsx lines 104–107). -/
def fixYear (y : ℕ) : ℕ :=
  if y < 100 then (if y < 50 then 2000 + y else 1900 + y) else y

/-- The day/month disambiguation of `parseDate` (src/App.tsx lines 109–144)
on the two leading components and the already-widened year: the first
condition is the source's `onlyValidAsEuropean` (day-first forced), the
second its `onlyValidAsAmerican` (month-first forced), and the genuinely
ambiguous remainder is read day-first. -/
def dmyDisambiguate (num1 num2 year : ℕ) : String :=
  if 12 < num1 ∧ num2 ≤ 12 then
    (checkAndFormat num1 num2 year).getD "Invalid Date"
  else if 12 < num2 ∧ num1 ≤ 12 then
    (checkAndFormat num2 num1 year).getD "Invalid Date"
  else
    (checkAndFormat num1 num2 year).getD "Invalid Date"

/-- The day/month tail of the string branch: reached when the ISO pattern
did not match or matched but failed validation. -/
def parseDateDMYPart (trimmed : String) : String :=
  match dmyMatch trimmed.data with
  | some (num1, num2, yr) => dmyDisambiguate num1 num2 (fixYear yr)
  | none => "Invalid Date"

/-- Outcome of a matched ISO pattern: a validated date is returned
directly, a failed validation falls through to the day/month tail. -/
def isoThen (res : Option String) (trimmed : String) : String :=
  match res with
  | some r => r
  | none => parseDateDMYPart trimmed

/-- The string branch of `parseDate` on the trimmed input: the ISO pattern
is tried first; if it does not match, or matches but fails validation,
control falls through to the day/month pattern; everything else is the
sentinel. -/
def parseDateString (trimmed : String) : String :=
  if trimmed = "" then "Invalid Date"
  else
    match isoMatch trimmed.data with
    | some (year, month, day) => isoThen (checkAndFormat day month year) trimmed
    | none => parseDateDMYPart trimmed

/-- Milliseconds of `Date.UTC(1899, 11, 30)`, the Excel epoch used by
`parseDate`'s numeric branch. -/
def excelEpochMs : ℤ := daysFromCivil 1899 12 30 * 86400000

/-- Truncation of a rational toward zero, as the `Date` constructor's
TimeClip applies to a fractional millisecond value. -/
def ratTrunc (q : ℚ) : ℤ := if 0 ≤ q then ⌊q⌋ else ⌈q⌉

/-- The Excel-serial branch of `parseDate` (src/App.tsx lines 66–74):
`excelEpoch + value * 86400000` milliseconds, read back through the UTC
getters (`floor` division by a day's milliseconds, then the civil date). -/
def excelSerialToString (q : ℚ) : String :=
  let t : ℤ := ratTrunc ((excelEpochMs : ℚ) + q * 86400000)
  let days : ℤ := Int.fdiv t 86400000
  let c := civilFromDays days
  fmtDMY c.2.2 c.2.1 c.1.toNat

/-- Embedding of `parseDate` from src/App.tsx (lines 54–148): falsy values
other than the number 0 are rejected up front; a valid `Date` object is
formatted from its local fields; a number in the plausible Excel-serial
range `(0, 100000)` is converted from the 1899-12-30 epoch; a string is
trimmed and handed to the pattern matching; everything else is the
sentinel. -/
def parseDate (dateValue : CellValue) : String :=
  if jsTruthy dateValue = false ∧ dateValue ≠ .num 0 then "Invalid Date"
  else
    match dateValue with
    | .dateVal d =>
        if d.valid then fmtDMY d.day (d.month0 + 1) d.year else "Invalid Date"
    | .num q =>
        if 0 < q ∧ q < 100000 then excelSerialToString q else "Invalid Date"
    | .str s => parseDateString (jsTrim s)
    | _ => "Invalid Date"

/-- The shape every successful branch of `parseDate` produces: two-digit
padded day and month and the year as printed (`DD/MM/YYYY`). -/
def isFormattedDate (s : String) : Prop :=
  ∃ day month year, s = fmtDMY day month year

/-- The `Category` record of src/App.tsx. -/
structure Category where
  id : String
  name : String
  keywords : List String
deriving DecidableEq, Repr

/-- The `Categories` record of src/App.tsx: income and expense category
lists. -/
structure Categories where
  income : List Category
  expense : List Category
deriving DecidableEq, Repr

/-- One entry of the flattened `allKeywords` list: a keyword tagged with its
owning category's name. -/
structure Candidate where
  keyword : String
  category : String
deriving DecidableEq, Repr

/-- The per-category flattening `[c.name, ...c.keywords].map(...)`. -/
def candidatesOf (c : Category) : List Candidate :=
  (c.name :: c.keywords).map (fun k => ⟨k, c.name⟩)

/-- The full `allKeywords` list before sorting: income categories first,
then expense categories, each contributing its name followed by its
keywords. -/
def allCandidates (cats : Categories) : List Candidate :=
  cats.income.flatMap candidatesOf ++ cats.expense.flatMap candidatesOf

/-- The sort key `(x.keyword || '').length`. -/
def keyLen (c : Candidate) : ℕ := c.keyword.length

/-- Insertion step of the stable descending-by-length sort: walk past
strictly longer entries and stop before the first entry of equal or smaller
length, so entries of equal length keep their original relative order. -/
def insertByLenDesc (x : Candidate) : List Candidate → List Candidate
  | [] => [x]
  | y :: ys =>
      if keyLen x < keyLen y then y :: insertByLenDesc x ys else x :: y :: ys

/-- Model of `allKeywords.sort((a, b) => b.length - a.length)`: a stable
sort by keyword length, descending (`Array.prototype.sort` is stable). -/
def sortByLenDesc : List Candidate → List Candidate
  | [] => []
  | x :: xs => insertByLenDesc x (sortByLenDesc xs)

/-- Order-preserving de-duplication, the effect of `[...new Set(forms)]`:
each element is kept at its first occurrence. -/
def dedupFirst (l : List String) : List String :=
  l.foldl (fun acc x => if x ∈ acc then acc else acc ++ [x]) []

/-- Embedding of `getVariations` inside `autoCategorizeTransaction`: the
normalized keyword plus a naive Spanish singular (strip a final `es`, else a
final `s`, on words longer than 3), de-duplicated.  `endsWith` and the
end-slices are spelled out on the character list. -/
def getVariations (keyword : String) : List String :=
  let normalized := normalizeString keyword
  let nd := normalized.data
  let forms :=
    if nd.drop (nd.length - 2) = ['e', 's'] ∧ 3 < nd.length then
      [normalized, String.mk (nd.take (nd.length - 2))]
    else if nd.drop (nd.length - 1) = ['s'] ∧ 3 < nd.length then
      [normalized, String.mk (nd.take (nd.length - 1))]
    else [normalized]
  dedupFirst forms

/-- JavaScript regex word character (`\w`, also the character class `\b`
tests): ASCII letters, digits and underscore. -/
def isWordChar (c : Char) : Bool :=
  c.isDigit || ('a' ≤ c && c ≤ 'z') || ('A' ≤ c && c ≤ 'Z') || c = '_'

/-- Word-ness of an optional character; positions outside the string count
as non-word. -/
def isWordOpt : Option Char → Bool
  | some c => isWordChar c
  | none => false

/-- Occurrence of the literal pattern at position `i` of the text with a
`\b` boundary on both sides (word-ness changes across each edge of the
occurrence). -/
def wholeWordAt (pat text : List Char) (i : ℕ) : Bool :=
  ((text.drop i).take pat.length = pat : Bool) &&
  xor (isWordOpt (if i = 0 then none else text.get? (i - 1)))
    (isWordOpt pat.head?) &&
  xor (isWordOpt pat.getLast?) (isWordOpt (text.get? (i + pat.length)))

/-- Model of `new RegExp("\\b" + escaped + "\\b").test(text)` for an
escaped (hence literal) pattern: some position carries a whole-word
occurrence. -/
def regexWholeWordTest (pat text : List Char) : Bool :=
  (List.range (text.length + 1)).any (fun i => wholeWordAt pat text i)

/-- Pass-1 success of one candidate against the normalized description:
the keyword is non-empty and some non-empty variation whole-word-matches. -/
def candMatchesWord (normDesc : String) (c : Candidate) : Bool :=
  !(c.keyword = "") &&
  (getVariations c.keyword).any (fun v =>
    !(v = "") && regexWholeWordTest v.data normDesc.data)

/-- Model of `text.includes(pat)`: the pattern occurs contiguously at some
position. -/
def jsIncludes (pat text : List Char) : Bool :=
  (List.range (text.length + 1)).any (fun i => (text.drop i).take pat.length = pat)

/-- Pass-2 success of one candidate: the keyword is non-empty and some
non-empty variation occurs as a substring (`includes`). -/
def candMatchesSub (normDesc : String) (c : Candidate) : Bool :=
  !(c.keyword = "") &&
  (getVariations c.keyword).any (fun v =>
    !(v = "") && jsIncludes v.data normDesc.data)

/-- Embedding of `autoCategorizeTransaction` from src/App.tsx (lines
266–322): flatten, stable-sort by keyword length descending, then pass 1
(whole-word) and pass 2 (substring), each returning the first hit's
category; no hit at all returns the empty string. -/
def autoCategorizeTransaction (description : String) (categories : Categories) : String :=
  match (sortByLenDesc (allCandidates categories)).find?
      (candMatchesWord (normalizeString description)) with
  | some c => c.category
  | none =>
      match (sortByLenDesc (allCandidates categories)).find?
          (candMatchesSub (normalizeString description)) with
      | some c => c.category
      | none => ""

/-- The `Transaction` record of src/App.tsx (`StagedTransaction` has the
identical shape). -/
structure Transaction where
  id : String
  date : String
  description : String
  amount : ℚ
  category : String
  ignored : Bool
deriving DecidableEq, Repr

/-- JavaScript array indexing `row[i]`: out of bounds yields `undefined`. -/
def cellAt (row : List CellValue) (i : ℕ) : CellValue :=
  row.getD i CellValue.undef

/-- JavaScript `v || w`. -/
def jsOr (v w : CellValue) : CellValue :=
  if jsTruthy v then v else w

/-- The row-to-staged-transaction map body of `handleProcessMappedFile`
(src/App.tsx lines 618–660): parse the date cell, stringify-and-trim the
description cell (with `|| ''` for falsy cells), parse the amount cell
(with `|| 0` for falsy cells), and build the staged record with an empty
category.  `now` stands for the `Date.now()` used in the generated id. -/
def mkStagedTx (now : ℕ) (fmt : NumberFormat) (dateIndex descIndex amountIndex : ℕ)
    (index : ℕ) (row : List CellValue) : Transaction :=
  let rawDate := cellAt row dateIndex
  let date := parseDate rawDate
  let description := jsTrim (jsToStr (jsOr (cellAt row descIndex) (.str "")))
  let rawAmount := jsOr (cellAt row amountIndex) (.num 0)
  let amount := parseAmount rawAmount fmt
  { id := "staged-" ++ Nat.repr now ++ "-" ++ Nat.repr index
    date := date
    description := description
    amount := amount
    category := ""
    ignored := false }

/-- The keep-filter of `handleProcessMappedFile` (src/App.tsx lines
661–664): a transaction survives exactly when its date is not the invalid
sentinel and its description is non-empty. -/
def keepTx (t : Transaction) : Bool :=
  !(t.date = "Invalid Date") && !(t.description = "")

/-- All rows mapped to staged transactions (before the keep-filter). -/
def mappedTxs (now : ℕ) (fmt : NumberFormat) (di de da : ℕ)
    (rows : List (List CellValue)) : List Transaction :=
  rows.enum.map (fun p => mkStagedTx now fmt di de da p.1 p.2)

/-- The `newTransactions` list of `handleProcessMappedFile`: mapped rows
surviving the keep-filter. -/
def processedRows (now : ℕ) (fmt : NumberFormat) (di de da : ℕ)
    (rows : List (List CellValue)) : List Transaction :=
  (mappedTxs now fmt di de da rows).filter keepTx

/-- The `invalidDatesCount` tally: rows whose parsed date is the sentinel. -/
def invalidDatesCount (now : ℕ) (fmt : NumberFormat) (di de da : ℕ)
    (rows : List (List CellValue)) : ℕ :=
  (mappedTxs now fmt di de da rows).countP (fun t => t.date = "Invalid Date")

/-- The `emptyDescriptionsCount` tally: rows whose trimmed description is
empty. -/
def emptyDescriptionsCount (now : ℕ) (fmt : NumberFormat) (di de da : ℕ)
    (rows : List (List CellValue)) : ℕ :=
  (mappedTxs now fmt di de da rows).countP (fun t => t.description = "")

/-- The per-row skip condition of the claim, phrased on the raw row: the
parsed date cell is the invalid sentinel, or the stringified-and-trimmed
description cell is empty. -/
def rowSkipped (di de : ℕ) (row : List CellValue) : Bool :=
  (parseDate (cellAt row di) = "Invalid Date") ||
  (jsTrim (jsToStr (jsOr (cellAt row de) (.str ""))) = "")

/-- The `skippedRows` count reported to the user:
`parsedData.length - newTransactions.length`. -/
def skippedRows (now : ℕ) (fmt : NumberFormat) (di de da : ℕ)
    (rows : List (List CellValue)) : ℕ :=
  rows.length - (processedRows now fmt di de da rows).length

/-- The auto-categorization step applied to each kept transaction
(`foundCategory || ''`). -/
def categorizeTx (cats : Categories) (t : Transaction) : Transaction :=
  let foundCategory := autoCategorizeTransaction t.description cats
  { t with category := if foundCategory = "" then "" else foundCategory }

/-- The batch `handleProcessMappedFile` appends to the staged set: kept
rows, auto-categorized. -/
def stagedBatch (cats : Categories) (now : ℕ) (fmt : NumberFormat)
    (di de da : ℕ) (rows : List (List CellValue)) : List Transaction :=
  (processedRows now fmt di de da rows).map (categorizeTx cats)

/-- The slice of the component state `handleFinalizeStaging` reads and
writes. -/
structure AppModel where
  transactions : List Transaction
  stagedTransactions : List Transaction
  fileHeaders : List String
  parsedData : List (List CellValue)
  filePreview : List (List CellValue)
  mappedDate : String
  mappedDescription : String
  mappedAmount : String
  trackerView : String
deriving DecidableEq, Repr

/-- Embedding of `handleFinalizeStaging` (src/App.tsx lines 719–731): with
an empty staged set the handler only alerts and leaves the state unchanged;
otherwise the whole staged batch is appended to the permanent transactions,
the staged set and the import scratch state are cleared, and the view
switches to the transaction list. -/
def handleFinalizeStaging (s : AppModel) : AppModel :=
  if s.stagedTransactions = [] then s
  else
    { s with
      transactions := s.transactions ++ s.stagedTransactions
      stagedTransactions := []
      fileHeaders := []
      parsedData := []
      filePreview := []
      mappedDate := ""
      mappedDescription := ""
      mappedAmount := ""
      trackerView := "transactions" }

/-! ## Helper lemmas -/

/-- Successful table lookup exposes a table entry. -/
theorem tableGet_mem {α : Type} {l : List (Char × α)} {c : Char} {v : α}
    (h : tableGet l c = some v) : (c, v) ∈ l := by
  induction l with
  | nil => simp [tableGet] at h
  | cons p ps ih =>
      obtain ⟨k, w⟩ := p
      by_cases hc : c = k
      · subst hc
        simp [tableGet] at h
        simp [h]
      · simp [tableGet, hc] at h
        exact List.mem_cons_of_mem _ (ih h)

/-- The per-character pipeline underlying `normalizeString`: lower-case,
decompose, strip combining marks.  Proof-side regrouping of the three
string-level passes. -/
def pipeChar (c : Char) : List Char :=
  (nfdChar (toLowerChar c)).filter (fun d => !isCombiningMark d)

/-- Every character produced by a table-mapped character is a fixed point of
the pipeline (checked by evaluation over the finite tables). -/
theorem lowerMap_outputs_fixed :
    ∀ p ∈ lowerMap, ∀ d ∈ pipeChar p.1, pipeChar d = [d] := by decide

/-- Every character produced by an NFD-decomposed character is a fixed point
of the pipeline (checked by evaluation over the finite table). -/
theorem nfdMap_outputs_fixed :
    ∀ p ∈ nfdMap, ∀ d ∈ pipeChar p.1, pipeChar d = [d] := by decide

/-- Every character the pipeline emits is a fixed point of the pipeline. -/
theorem pipeChar_fixed (c : Char) : ∀ d ∈ pipeChar c, pipeChar d = [d] := by
  cases hl : tableGet lowerMap c with
  | some v =>
      exact lowerMap_outputs_fixed (c, v) (tableGet_mem hl)
  | none =>
      cases hn : tableGet nfdMap c with
      | some L =>
          have hmem := tableGet_mem hn
          have hlow : toLowerChar c = c := by simp [toLowerChar, hl]
          have : pipeChar c = (nfdChar c).filter (fun d => !isCombiningMark d) := by
            simp [pipeChar, hlow]
          intro d hd
          have := nfdMap_outputs_fixed (c, L) hmem d
          apply this
          simpa [pipeChar, toLowerChar, hl] using hd
      | none =>
          intro d hd
          have hlow : toLowerChar c = c := by simp [toLowerChar, hl]
          have hnfd : nfdChar c = [c] := by simp [nfdChar, hn]
          have hpipe : pipeChar c
              = if isCombiningMark c then [] else [c] := by
            simp only [pipeChar, hlow, hnfd, List.filter]
            cases hcm : isCombiningMark c <;> simp
          by_cases hcm : isCombiningMark c
          · rw [hpipe, if_pos hcm] at hd
            simp at hd
          · rw [hpipe, if_neg hcm] at hd
            simp at hd
            subst hd
            rw [hpipe, if_neg hcm]

/-- `normalizeString` is the concatenation of the per-character pipeline. -/
theorem normalizeString_eq_flatMap (s : String) :
    normalizeString s = String.mk (s.data.flatMap pipeChar) := by
  have key : ∀ l : List Char,
      ((l.map toLowerChar).flatMap nfdChar).filter (fun d => !isCombiningMark d)
        = l.flatMap pipeChar := by
    intro l
    induction l with
    | nil => simp
    | cons x xs ih =>
        simp [List.flatMap_cons, List.filter_append, ih, pipeChar]
  by_cases hs : s = ""
  · subst hs
    simp [normalizeString]
  · simp [normalizeString, hs, key]

/-- A list of pipeline fixed points is unchanged by another pipeline pass. -/
theorem flatMap_pipeChar_fixed (l : List Char)
    (h : ∀ d ∈ l, pipeChar d = [d]) : l.flatMap pipeChar = l := by
  induction l with
  | nil => simp
  | cons x xs ih =>
      simp only [List.flatMap_cons, h x (List.mem_cons_self x xs)]
      simp only [List.singleton_append, List.cons.injEq, true_and]
      exact ih (fun d hd => h d (List.mem_cons_of_mem x hd))

/-! ## C8 — normalizer idempotence -/

/-- C8: `normalizeString` is idempotent on every string; `"CAFÉ"` normalizes
to `"cafe"`; and the empty and `null` inputs normalize to the empty string
(the `null` case through the `if (!str) return ''` guard modelled by
`normalizeStringNullable`). -/
theorem normalizeString_idempotent :
    (∀ s : String, normalizeString (normalizeString s) = normalizeString s) ∧
    normalizeString "CAFÉ" = "cafe" ∧
    normalizeString "" = "" ∧
    normalizeStringNullable none = "" := by
  refine ⟨?_, by decide, by decide, rfl⟩
  intro s
  rw [normalizeString_eq_flatMap s, normalizeString_eq_flatMap]
  show String.mk ((s.data.flatMap pipeChar).flatMap pipeChar) = _
  congr 1
  apply flatMap_pipeChar_fixed
  intro d hd
  rw [List.mem_flatMap] at hd
  obtain ⟨c, _, hdc⟩ := hd
  exact pipeChar_fixed c d hdc

/-! ## C7 — finalize is all-or-nothing -/

/-- C7: finalizing a non-empty staged batch appends every staged
transaction, in order and without duplication, to the permanent transaction
set and empties the staged set; the handler is a single state transition, so
no execution promotes a proper non-empty subset. -/
theorem finalize_staging_all_or_nothing (s : AppModel)
    (h : s.stagedTransactions ≠ []) :
    (handleFinalizeStaging s).transactions
        = s.transactions ++ s.stagedTransactions ∧
    (handleFinalizeStaging s).stagedTransactions = [] := by
  unfold handleFinalizeStaging
  rw [if_neg h]
  exact ⟨rfl, rfl⟩

/-- Witness for C7 at a concrete one-element staged batch. -/
theorem finalize_staging_all_or_nothing_witness :
    (handleFinalizeStaging
        ⟨[], [⟨"a", "01/01/2020", "x", 1, "", false⟩], [], [], [], "", "", "",
          "import"⟩).transactions
      = [] ++ [⟨"a", "01/01/2020", "x", 1, "", false⟩] ∧
    (handleFinalizeStaging
        ⟨[], [⟨"a", "01/01/2020", "x", 1, "", false⟩], [], [], [], "", "", "",
          "import"⟩).stagedTransactions = [] :=
  finalize_staging_all_or_nothing _ (by decide)

/-! ## C1 — concrete amount edge cases

Four of the spec's edge cases hold, but `parseAmount("1.234", 'eur')`
returns `1.234`, not the claimed `1234`: the single-dot branch only treats
the dot as a thousands separator when the string is longer than 7
characters (src/App.tsx line 205), so `"1.234"` (length 5) falls into the
decimal branch — although that branch's own comment names `"1.234"` as a
thousands-separator example.  The theorem evaluates the embedding at every
edge case, including the failing one. -/

/-- C1: the stated edge-case values of `parseAmount`, with the divergence
at `"1.234"` under the European locale: the code yields `1.234`, not the
claimed `1234`.  Garbage inputs are shown at two representative strings
(the universal no-digit statement is proved with C5). -/
theorem parse_amount_edge_cases :
    parseAmount (.str "1.234,56") .eur = mkRat 123456 100 ∧
    parseAmount (.str "1,234.56") .usa = mkRat 123456 100 ∧
    parseAmount (.str "1234,56") .eur = mkRat 123456 100 ∧
    parseAmount (.str "-45,00") .eur = -45 ∧
    parseAmount (.str "") .eur = 0 ∧
    parseAmount (.str "") .usa = 0 ∧
    parseAmount (.str "garbage!") .eur = 0 ∧
    parseAmount (.str "garbage!") .usa = 0 ∧
    parseAmount (.str "1.234") .eur = mkRat 1234 1000 ∧
    ¬ parseAmount (.str "1.234") .eur = 1234 := by
  decide

/-! ## C5 — lenient degrade of the amount parser -/

/-- Elements of `replaceFirst c r l` come from `l` or are the replacement
character. -/
theorem mem_replaceFirst {c r x : Char} {l : List Char}
    (h : x ∈ replaceFirst c r l) : x ∈ l ∨ x = r := by
  induction l with
  | nil => simp [replaceFirst] at h
  | cons y ys ih =>
      by_cases hy : y = c
      · subst hy
        simp [replaceFirst] at h
        rcases h with h | h
        · exact Or.inr h
        · exact Or.inl (List.mem_cons_of_mem _ h)
      · simp [replaceFirst, hy] at h
        rcases h with h | h
        · exact Or.inl (by simp [h])
        · rcases ih h with h' | h'
          · exact Or.inl (List.mem_cons_of_mem _ h')
          · exact Or.inr h'

/-- A digit-free character list stays digit-free through the
separator-resolution step (the step only deletes characters or introduces a
dot). -/
theorem resolveSeparators_no_digits (fmt : NumberFormat) {l : List Char}
    (h : ∀ c ∈ l, c.isDigit = false) :
    ∀ c ∈ resolveSeparators fmt l, c.isDigit = false := by
  intro c hc
  have base : ∀ c₀ : Char, c ∈ removeAll c₀ l → c.isDigit = false := by
    intro c₀ hm
    exact h c (List.mem_of_mem_filter hm)
  have repl : ∀ c₀, c ∈ replaceFirst c₀ '.' l → c.isDigit = false := by
    intro c₀ hm
    rcases mem_replaceFirst hm with hm' | hm'
    · exact h c hm'
    · subst hm'
      decide
  have replRm : ∀ c₀ c₁, c ∈ replaceFirst c₀ '.' (removeAll c₁ l) → c.isDigit = false := by
    intro c₀ c₁ hm
    rcases mem_replaceFirst hm with hm' | hm'
    · exact h c (List.mem_of_mem_filter hm')
    · subst hm'
      decide
  cases fmt with
  | eur =>
      simp only [resolveSeparators] at hc
      split at hc
      · exact replRm ',' '.' hc
      · split at hc
        · split at hc
          · exact repl ',' hc
          · exact base ',' hc
        · split at hc
          · split at hc
            · exact base '.' hc
            · exact h c hc
          · exact h c hc
  | usa =>
      simp only [resolveSeparators] at hc
      split at hc
      · exact base ',' hc
      · split at hc
        · split at hc
          · exact base ',' hc
          · split at hc
            · exact repl ',' hc
            · exact base ',' hc
        · exact h c hc

/-- A digit-free list has an empty leading digit run. -/
theorem takeWhile_digit_nil {m : List Char}
    (hm : ∀ c ∈ m, c.isDigit = false) : m.takeWhile Char.isDigit = [] := by
  cases m with
  | nil => rfl
  | cons x xs =>
      simp [List.takeWhile_cons, hm x (List.mem_cons_self x xs)]

/-- The numeral body of `parseFloat` yields `NaN` on a digit-free rest. -/
theorem parseFloatAfterSign_no_digits (sgn : ℤ) {rest : List Char}
    (h : ∀ c ∈ rest, c.isDigit = false) :
    parseFloatAfterSign sgn rest = none := by
  unfold parseFloatAfterSign
  rw [takeWhile_digit_nil h]
  simp only [List.length_nil, List.drop_zero]
  split
  · rename_i tail
    have hxs : ∀ c ∈ tail, c.isDigit = false := fun c hc =>
      h c (List.mem_cons_of_mem _ hc)
    rw [takeWhile_digit_nil hxs]
    simp
  · simp

/-- `parseFloat` yields `NaN` on a digit-free string. -/
theorem parseFloatJS_no_digits {l : List Char}
    (h : ∀ c ∈ l, c.isDigit = false) : parseFloatJS l = none := by
  unfold parseFloatJS
  split
  · exact parseFloatAfterSign_no_digits _ (fun c hc =>
      h c (List.mem_cons_of_mem _ hc))
  · exact parseFloatAfterSign_no_digits _ (fun c hc =>
      h c (List.mem_cons_of_mem _ hc))
  · exact parseFloatAfterSign_no_digits _ h

/-- Characters surviving `dropWhile` come from the original list. -/
theorem mem_of_mem_dropWhile {p : Char → Bool} {c : Char} {l : List Char}
    (h : c ∈ l.dropWhile p) : c ∈ l := by
  induction l with
  | nil => simp [List.dropWhile] at h
  | cons x xs ih =>
      by_cases hx : p x
      · simp only [List.dropWhile_cons, hx, if_pos] at h
        exact List.mem_cons_of_mem _ (ih (by simpa using h))
      · simp only [List.dropWhile_cons, hx] at h
        simpa using h

/-- Characters of the trimmed string come from the original string. -/
theorem mem_of_mem_jsTrim {c : Char} {s : String}
    (h : c ∈ (jsTrim s).data) : c ∈ s.data := by
  simp only [jsTrim] at h
  have h1 : c ∈ (s.data.dropWhile Char.isWhitespace).reverse.dropWhile
      Char.isWhitespace := List.mem_reverse.mp h
  have h2 := mem_of_mem_dropWhile h1
  exact mem_of_mem_dropWhile (List.mem_reverse.mp h2)

/-- Characters surviving the leading-minus strip come from the original
list. -/
theorem mem_of_mem_dropLeadingMinus {c : Char} {l : List Char}
    (h : c ∈ dropLeadingMinus l) : c ∈ l := by
  unfold dropLeadingMinus at h
  split at h
  · exact List.mem_cons_of_mem _ h
  · exact h

/-- The string path of `parseAmount` returns 0 whenever the input string
contains no digit at all. -/
theorem parseAmountString_no_digits {s : String} (fmt : NumberFormat)
    (h : ∀ c ∈ s.data, c.isDigit = false) :
    parseAmountString s fmt = 0 := by
  unfold parseAmountString
  by_cases ht : jsTrim s = ""
  · rw [if_pos ht]
  · rw [if_neg ht]
    have hclean : ∀ c ∈ (jsTrim s).data.filter keepAmountChar,
        c.isDigit = false := by
      intro c hc
      exact h c (mem_of_mem_jsTrim (List.mem_of_mem_filter hc))
    by_cases hz : (jsTrim s).data.filter keepAmountChar = [] ∨
        (jsTrim s).data.filter keepAmountChar = ['-'] ∨
        (jsTrim s).data.filter keepAmountChar = ['+']
    · rw [if_pos hz]
    · rw [if_neg hz]
      have habs : ∀ c ∈ dropLeadingMinus ((jsTrim s).data.filter keepAmountChar),
          c.isDigit = false := fun c hc =>
        hclean c (mem_of_mem_dropLeadingMinus hc)
      have hres := resolveSeparators_no_digits fmt habs
      simp only [parseFloatJS_no_digits hres]

/-- C5: `parseAmount` is a total function into the rationals (it is a Lean
function, so it terminates and never throws on any cell value), and on
every unparseable input it returns 0: `null`, `undefined`, the empty
string, `NaN`, and every string without a single digit, under either
locale. -/
theorem parse_amount_total_lenient :
    (∀ fmt : NumberFormat,
      parseAmount .null fmt = 0 ∧ parseAmount .undef fmt = 0 ∧
      parseAmount (.str "") fmt = 0 ∧ parseAmount .nan fmt = 0) ∧
    (∀ (s : String) (fmt : NumberFormat),
      (∀ c ∈ s.data, c.isDigit = false) → parseAmount (.str s) fmt = 0) := by
  constructor
  · intro fmt
    cases fmt <;> exact ⟨by decide, by decide, by decide, by decide⟩
  · intro s fmt h
    by_cases hs : s = ""
    · subst hs
      cases fmt <;> decide
    · unfold parseAmount
      rw [if_neg (by simp [hs])]
      show parseAmountString (jsToStr (.str s)) fmt = 0
      show parseAmountString s fmt = 0
      exact parseAmountString_no_digits fmt h

/-- Witness for C5 at the concrete digit-free string `"n/a"`. -/
theorem parse_amount_total_lenient_witness :
    (∀ c ∈ ("n/a" : String).data, c.isDigit = false) ∧
    parseAmount (.str "n/a") .eur = 0 :=
  ⟨by decide, parse_amount_total_lenient.2 "n/a" .eur (by decide)⟩

/-! ## Date parser lemmas -/

/-- A successful guard-construct-compare step returns exactly the formatted
date. -/
theorem checkAndFormat_eq_some {d m y : ℕ} {r : String}
    (h : checkAndFormat d m y = some r) : r = fmtDMY d m y := by
  unfold checkAndFormat at h
  split at h
  · split at h
    · exact (Option.some.inj h).symm
    · simp at h
  · simp at h

/-- The ISO pattern and the day/month pattern are mutually exclusive: the
former requires a four-digit leading run, the latter at most two digits. -/
theorem isoMatch_eq_none_of_dmyMatch {l : List Char} {x : ℕ × ℕ × ℕ}
    (h : dmyMatch l = some x) : isoMatch l = none := by
  unfold dmyMatch at h
  unfold isoMatch
  cases hs : sepSplit3 l with
  | none => rw [hs] at h
  | some t =>
      obtain ⟨a, b, d⟩ := t
      rw [hs] at h
      replace h : (if (1 ≤ a.length ∧ a.length ≤ 2) ∧
          (1 ≤ b.length ∧ b.length ≤ 2) ∧ 2 ≤ d.length ∧ d.length ≤ 4 then
          some (digitsToNat a, digitsToNat b, digitsToNat d) else none)
          = some x := h
      show (if a.length = 4 ∧ (1 ≤ b.length ∧ b.length ≤ 2) ∧
          1 ≤ d.length ∧ d.length ≤ 2 then
          some (digitsToNat a, digitsToNat b, digitsToNat d) else none) = none
      split at h
      · rename_i hcond
        rw [if_neg]
        intro hiso
        exact absurd hiso.1 (by omega)
      · exact absurd h (by simp)

/-- A trimmed string matching the day/month pattern routes `parseDate`
through the disambiguation step on its parsed components and widened
year. -/
theorem parseDate_str_dmy {s : String} {n1 n2 yr : ℕ}
    (h : dmyMatch (jsTrim s).data = some (n1, n2, yr)) :
    parseDate (.str s) = dmyDisambiguate n1 n2 (fixYear yr) := by
  have htrim : ¬ jsTrim s = "" := by
    intro he
    rw [he] at h
    simp [dmyMatch, sepSplit3] at h
  have hs : ¬ s = "" := by
    intro he
    subst he
    exact htrim (by decide)
  unfold parseDate
  rw [if_neg (by simp [jsTruthy, hs])]
  show parseDateString (jsTrim s) = _
  unfold parseDateString
  rw [if_neg htrim, isoMatch_eq_none_of_dmyMatch h]
  show parseDateDMYPart (jsTrim s) = _
  unfold parseDateDMYPart
  rw [h]

/-- Every outcome of the disambiguation step is the sentinel or a formatted
date. -/
theorem dmyDisambiguate_shape (n1 n2 y : ℕ) :
    dmyDisambiguate n1 n2 y = "Invalid Date" ∨
      isFormattedDate (dmyDisambiguate n1 n2 y) := by
  unfold dmyDisambiguate
  split
  · cases hcf : checkAndFormat n1 n2 y with
    | none => left; rfl
    | some r => right; exact ⟨n1, n2, y, by simp [checkAndFormat_eq_some hcf]⟩
  · split
    · cases hcf : checkAndFormat n2 n1 y with
      | none => left; rfl
      | some r => right; exact ⟨n2, n1, y, by simp [checkAndFormat_eq_some hcf]⟩
    · cases hcf : checkAndFormat n1 n2 y with
      | none => left; rfl
      | some r => right; exact ⟨n1, n2, y, by simp [checkAndFormat_eq_some hcf]⟩

/-- Every outcome of the day/month tail is the sentinel or a formatted
date. -/
theorem parseDateDMYPart_shape (t : String) :
    parseDateDMYPart t = "Invalid Date" ∨ isFormattedDate (parseDateDMYPart t) := by
  unfold parseDateDMYPart
  cases hdmy : dmyMatch t.data with
  | some triple =>
      obtain ⟨n1, n2, yr⟩ := triple
      exact dmyDisambiguate_shape n1 n2 (fixYear yr)
  | none => left; rfl

/-- Every outcome of the ISO-success continuation is the sentinel or a
formatted date. -/
theorem isoThen_shape (d m y : ℕ) (t : String) :
    isoThen (checkAndFormat d m y) t = "Invalid Date" ∨
      isFormattedDate (isoThen (checkAndFormat d m y) t) := by
  unfold isoThen
  cases hcf : checkAndFormat d m y with
  | some r =>
      right
      exact ⟨d, m, y, checkAndFormat_eq_some hcf⟩
  | none => exact parseDateDMYPart_shape t

/-- Every outcome of the string branch is the sentinel or a formatted
date. -/
theorem parseDateString_shape (t : String) :
    parseDateString t = "Invalid Date" ∨ isFormattedDate (parseDateString t) := by
  unfold parseDateString
  split
  · left; rfl
  · cases hiso : isoMatch t.data with
    | some triple =>
        obtain ⟨y, m, d⟩ := triple
        exact isoThen_shape d m y t
    | none => exact parseDateDMYPart_shape t

/-! ## C3 — the date parser never throws -/

/-- C3: on every cell value — native date, number, string, `null`, boolean,
`undefined`, `NaN` — `parseDate` is a total function (it is a Lean
function, so it terminates and never throws) returning either a formatted
`DD/MM/YYYY` string or the invalid sentinel; a no-pattern value and an
impossible calendar date (31 April, or 30 February in ISO form) yield the
sentinel. -/
theorem parse_date_total_shape :
    (∀ v : CellValue, parseDate v = "Invalid Date" ∨ isFormattedDate (parseDate v)) ∧
    parseDate (.str "31/04/2023") = "Invalid Date" ∧
    parseDate (.str "2023-02-30") = "Invalid Date" ∧
    parseDate (.str "not a date") = "Invalid Date" := by
  refine ⟨?_, by decide, by decide, by decide⟩
  intro v
  cases v with
  | str s =>
      by_cases hs : s = ""
      · subst hs
        left
        decide
      · have hred : parseDate (.str s) = parseDateString (jsTrim s) := by
          unfold parseDate
          rw [if_neg (by simp [jsTruthy, hs])]
        rw [hred]
        exact parseDateString_shape (jsTrim s)
  | num q =>
      by_cases h0 : q = 0
      · subst h0
        left
        decide
      · have hguard : ¬(jsTruthy (.num q) = false ∧ (.num q : CellValue) ≠ .num 0) := by
          simp [jsTruthy, h0]
        by_cases hr : 0 < q ∧ q < 100000
        · have hred : parseDate (.num q) = excelSerialToString q := by
            unfold parseDate
            rw [if_neg hguard]
            show (if 0 < q ∧ q < 100000 then excelSerialToString q
              else "Invalid Date") = _
            rw [if_pos hr]
          rw [hred]
          right
          exact ⟨_, _, _, rfl⟩
        · have hred : parseDate (.num q) = "Invalid Date" := by
            unfold parseDate
            rw [if_neg hguard]
            show (if 0 < q ∧ q < 100000 then excelSerialToString q
              else "Invalid Date") = _
            rw [if_neg hr]
          rw [hred]
          left
          rfl
  | dateVal d =>
      have hguard : ¬(jsTruthy (.dateVal d) = false ∧
          (.dateVal d : CellValue) ≠ .num 0) := by
        simp [jsTruthy]
      by_cases hv : d.valid = true
      · have hred : parseDate (.dateVal d) = fmtDMY d.day (d.month0 + 1) d.year := by
          unfold parseDate
          rw [if_neg hguard]
          show (if d.valid = true then fmtDMY d.day (d.month0 + 1) d.year
            else "Invalid Date") = _
          rw [if_pos hv]
        rw [hred]
        right
        exact ⟨_, _, _, rfl⟩
      · have hred : parseDate (.dateVal d) = "Invalid Date" := by
          unfold parseDate
          rw [if_neg hguard]
          show (if d.valid = true then fmtDMY d.day (d.month0 + 1) d.year
            else "Invalid Date") = _
          rw [if_neg hv]
        rw [hred]
        left
        rfl
  | nan => left; decide
  | null => left; decide
  | undef => left; decide
  | boolVal b => cases b <;> (left; decide)

/-! ## C6 — day/month disambiguation -/

/-- C6: for a trimmed string of the `D[D]/M[M]/YY[YY]` family with parsed
components `(num1, num2, yr)`: a first component above 12 (second at most
12) forces day-first reading, a second component above 12 (first at most
12) forces month-first reading, and the genuinely ambiguous both-at-most-12
case is read day-first; `parseDate` takes no locale argument, so
`"31/12/2023"` parses day-first under any locale setting. -/
theorem parse_date_disambiguation :
    (∀ (s : String) (num1 num2 yr : ℕ),
      dmyMatch (jsTrim s).data = some (num1, num2, yr) →
      ((12 < num1 ∧ num2 ≤ 12 →
          parseDate (.str s)
            = (checkAndFormat num1 num2 (fixYear yr)).getD "Invalid Date") ∧
       (12 < num2 ∧ num1 ≤ 12 →
          parseDate (.str s)
            = (checkAndFormat num2 num1 (fixYear yr)).getD "Invalid Date") ∧
       (num1 ≤ 12 ∧ num2 ≤ 12 →
          parseDate (.str s)
            = (checkAndFormat num1 num2 (fixYear yr)).getD "Invalid Date"))) ∧
    parseDate (.str "31/12/2023") = "31/12/2023" := by
  constructor
  · intro s n1 n2 yr h
    have hmain := parseDate_str_dmy h
    refine ⟨fun hc => ?_, fun hc => ?_, fun hc => ?_⟩
    · rw [hmain]
      unfold dmyDisambiguate
      rw [if_pos hc]
    · rw [hmain]
      unfold dmyDisambiguate
      rw [if_neg (by omega), if_pos hc]
    · rw [hmain]
      unfold dmyDisambiguate
      rw [if_neg (by omega), if_neg (by omega)]
  · decide

/-- Witness for C6 at the unambiguous date `"31/12/2023"`. -/
theorem parse_date_disambiguation_witness :
    parseDate (.str "31/12/2023")
      = (checkAndFormat 31 12 (fixYear 2023)).getD "Invalid Date" :=
  ((parse_date_disambiguation.1 "31/12/2023" 31 12 2023 (by decide)).1
    (by decide))

/-! ## C9 — two-digit-year window -/

/-- C9: a two-digit year component `yr` is widened before any validity
check: `00`–`49` become `2000`–`2049` and `50`–`99` become `1950`–`1999`,
and the disambiguation step receives the widened year. -/
theorem parse_date_two_digit_year :
    ∀ (s : String) (num1 num2 yr : ℕ),
      dmyMatch (jsTrim s).data = some (num1, num2, yr) → yr < 100 →
      parseDate (.str s)
        = dmyDisambiguate num1 num2 (if yr < 50 then 2000 + yr else 1900 + yr) := by
  intro s n1 n2 yr h hy
  rw [parseDate_str_dmy h]
  unfold fixYear
  rw [if_pos hy]

/-- Witness for C9 at `"1/2/49"` (year widened to 2049). -/
theorem parse_date_two_digit_year_witness :
    parseDate (.str "1/2/49")
      = dmyDisambiguate 1 2 (if 49 < 50 then 2000 + 49 else 1900 + 49) :=
  parse_date_two_digit_year "1/2/49" 1 2 49 (by decide) (by decide)

/-! ## C2 — per-row skip policy of the orchestrator -/

/-- The keep-filter on a mapped transaction is exactly the negation of the
raw-row skip condition. -/
theorem keepTx_mkStagedTx (now : ℕ) (fmt : NumberFormat) (di de da i : ℕ)
    (row : List CellValue) :
    keepTx (mkStagedTx now fmt di de da i row) = !rowSkipped di de row := by
  simp [keepTx, mkStagedTx, rowSkipped]

/-- Counting pairs by a property of the payload is counting the payloads. -/
theorem countP_enumFrom {α : Type} (p : α → Bool) :
    ∀ (l : List α) (n : ℕ),
      (List.enumFrom n l).countP (fun q => p q.2) = l.countP p := by
  intro l
  induction l with
  | nil => intro n; rfl
  | cons x xs ih =>
      intro n
      simp [List.enumFrom, List.countP_cons, ih]

/-- Every list member appears in the enumeration with some index. -/
theorem exists_mem_enumFrom {α : Type} {a : α} :
    ∀ {l : List α} (n : ℕ), a ∈ l → ∃ i, (i, a) ∈ List.enumFrom n l := by
  intro l
  induction l with
  | nil => intro n h; simp at h
  | cons x xs ih =>
      intro n h
      rcases List.mem_cons.mp h with h | h
      · subst h
        exact ⟨n, by simp [List.enumFrom]⟩
      · obtain ⟨i, hi⟩ := ih (n + 1) h
        exact ⟨i, by simp [List.enumFrom, Or.inr hi]⟩

/-- C2: the staged batch is exactly the per-row image of the non-skipped
rows — a row is excluded precisely when its parsed date is the sentinel or
its trimmed description is empty, every other row contributes its
transaction independently of all other rows (no batch abort), and the kept
and skipped counts partition the row count; in particular a row with a
valid date, a non-zero amount but an empty trimmed description satisfies
the skip condition, bumps the reported empty-description tally, and makes
the reported skipped-row count positive. -/
theorem process_rows_skip_policy (cats : Categories) (now : ℕ)
    (fmt : NumberFormat) (di de da : ℕ) (rows : List (List CellValue)) :
    (stagedBatch cats now fmt di de da rows
      = (rows.enum.filter (fun p => !rowSkipped di de p.2)).map
          (fun p => categorizeTx cats (mkStagedTx now fmt di de da p.1 p.2)) ∧
    (stagedBatch cats now fmt di de da rows).length
      + rows.countP (rowSkipped di de) = rows.length) ∧
    (∀ row ∈ rows,
      parseDate (cellAt row di) ≠ "Invalid Date" →
      jsTrim (jsToStr (jsOr (cellAt row de) (.str ""))) = "" →
      parseAmount (jsOr (cellAt row da) (.num 0)) fmt ≠ 0 →
      rowSkipped di de row = true ∧
      0 < emptyDescriptionsCount now fmt di de da rows ∧
      0 < skippedRows now fmt di de da rows) := by
  have hfilter : (mappedTxs now fmt di de da rows).filter keepTx
      = (rows.enum.filter (fun p => !rowSkipped di de p.2)).map
          (fun p => mkStagedTx now fmt di de da p.1 p.2) := by
    unfold mappedTxs
    rw [List.filter_map]
    congr 1
    apply List.filter_congr
    intro p _
    exact keepTx_mkStagedTx now fmt di de da p.1 p.2
  have hlen : (stagedBatch cats now fmt di de da rows).length
      + rows.countP (rowSkipped di de) = rows.length := by
    unfold stagedBatch processedRows
    rw [hfilter, List.map_map, List.length_map,
      ← List.countP_eq_length_filter, List.enum_eq_enumFrom,
      countP_enumFrom (fun r => !rowSkipped di de r) rows 0]
    have hpart := List.length_eq_countP_add_countP (rowSkipped di de) rows
    have hco : rows.countP (fun a => ¬rowSkipped di de a)
        = rows.countP (fun r => !rowSkipped di de r) :=
      List.countP_congr (fun x _ => by simp)
    omega
  refine ⟨⟨?_, hlen⟩, ?_⟩
  · unfold stagedBatch processedRows
    rw [hfilter, List.map_map]
    rfl
  · intro row hrow hdate hdesc hamt
    have hskip : rowSkipped di de row = true := by
      simp [rowSkipped, hdesc]
    refine ⟨hskip, ?_, ?_⟩
    · unfold emptyDescriptionsCount mappedTxs
      rw [List.countP_pos_iff]
      obtain ⟨i, hi⟩ := exists_mem_enumFrom 0 hrow
      refine ⟨mkStagedTx now fmt di de da i row, ?_, ?_⟩
      · rw [List.enum_eq_enumFrom]
        exact List.mem_map.mpr ⟨(i, row), hi, rfl⟩
      · simp [mkStagedTx, hdesc]
    · have hone : 0 < rows.countP (rowSkipped di de) := by
        rw [List.countP_pos_iff]
        exact ⟨row, hrow, hskip⟩
      have hsb : (stagedBatch cats now fmt di de da rows).length
          = (processedRows now fmt di de da rows).length := by
        unfold stagedBatch
        rw [List.length_map]
      unfold skippedRows
      omega

/-- Witness for C2: a one-row grid whose row has a valid date, a non-zero
amount and a whitespace-only description is skipped and counted. -/
theorem process_rows_skip_policy_witness :
    rowSkipped 0 1 [CellValue.str "01/02/2023", .str "  ", .str "5,00"] = true ∧
    0 < emptyDescriptionsCount 0 .eur 0 1 2
      [[CellValue.str "01/02/2023", .str "  ", .str "5,00"]] ∧
    0 < skippedRows 0 .eur 0 1 2
      [[CellValue.str "01/02/2023", .str "  ", .str "5,00"]] :=
  (process_rows_skip_policy ⟨[], []⟩ 0 .eur 0 1 2
      [[CellValue.str "01/02/2023", .str "  ", .str "5,00"]]).2
    [CellValue.str "01/02/2023", .str "  ", .str "5,00"]
    (by decide) (by decide) (by decide) (by decide)

/-! ## Sorting lemmas for the category matcher -/

/-- The insertion step splits the list around the inserted element, walking
past exactly the strictly longer entries (hence it is stable). -/
theorem insertByLenDesc_split (x : Candidate) :
    ∀ l : List Candidate, ∃ l₁ l₂, insertByLenDesc x l = l₁ ++ x :: l₂ ∧
      l = l₁ ++ l₂ ∧ ∀ y ∈ l₁, keyLen x < keyLen y := by
  intro l
  induction l with
  | nil => exact ⟨[], [], rfl, rfl, by simp⟩
  | cons y ys ih =>
      by_cases hy : keyLen x < keyLen y
      · obtain ⟨l₁, l₂, h1, h2, h3⟩ := ih
        refine ⟨y :: l₁, l₂, ?_, ?_, ?_⟩
        · simp [insertByLenDesc, hy, h1]
        · simp [h2]
        · intro z hz
          rcases List.mem_cons.mp hz with hz | hz
          · subst hz; exact hy
          · exact h3 z hz
      · exact ⟨[], y :: ys, by simp [insertByLenDesc, hy], rfl, by simp⟩

/-- The sort is a permutation as far as membership is concerned. -/
theorem mem_sortByLenDesc {a : Candidate} :
    ∀ {l : List Candidate}, a ∈ sortByLenDesc l ↔ a ∈ l := by
  intro l
  induction l with
  | nil => simp [sortByLenDesc]
  | cons x xs ih =>
      obtain ⟨l₁, l₂, h1, h2, _⟩ := insertByLenDesc_split x (sortByLenDesc xs)
      have hx : a ∈ l₁ ∨ a ∈ l₂ ↔ a ∈ xs := by
        rw [← List.mem_append, ← h2]
        exact ih
      show a ∈ insertByLenDesc x (sortByLenDesc xs) ↔ _
      rw [h1]
      simp only [List.mem_append, List.mem_cons]
      constructor
      · rintro (h | h | h)
        · exact Or.inr (hx.mp (Or.inl h))
        · exact Or.inl h
        · exact Or.inr (hx.mp (Or.inr h))
      · rintro (h | h)
        · exact Or.inr (Or.inl h)
        · rcases List.mem_append.mp ((List.mem_append.mpr ∘ hx.mpr) h) with h' | h'
          · exact Or.inl h'
          · exact Or.inr (Or.inr h')

/-- Inserting into a descending-by-length list keeps it descending. -/
theorem insertByLenDesc_sorted {x : Candidate} :
    ∀ {l : List Candidate},
      List.Pairwise (fun a b => keyLen b ≤ keyLen a) l →
      List.Pairwise (fun a b => keyLen b ≤ keyLen a) (insertByLenDesc x l) := by
  intro l
  induction l with
  | nil =>
      intro _
      simp [insertByLenDesc]
  | cons y ys ih =>
      intro hp
      rw [List.pairwise_cons] at hp
      simp only [insertByLenDesc]
      by_cases hy : keyLen x < keyLen y
      · rw [if_pos hy, List.pairwise_cons]
        refine ⟨?_, ih hp.2⟩
        intro z hz
        obtain ⟨l₁, l₂, h1, h2, _⟩ := insertByLenDesc_split x ys
        rw [h1] at hz
        rcases List.mem_append.mp hz with hz | hz
        · exact hp.1 z (by rw [h2]; exact List.mem_append.mpr (Or.inl hz))
        · rcases List.mem_cons.mp hz with hz | hz
          · subst hz; omega
          · exact hp.1 z (by rw [h2]; exact List.mem_append.mpr (Or.inr hz))
      · rw [if_neg hy, List.pairwise_cons]
        constructor
        · intro z hz
          rcases List.mem_cons.mp hz with hz | hz
          · subst hz; omega
          · have := hp.1 z hz
            omega
        · exact List.pairwise_cons.mpr hp

/-- The sort output is ordered by keyword length, descending. -/
theorem sortByLenDesc_sorted :
    ∀ l : List Candidate,
      List.Pairwise (fun a b => keyLen b ≤ keyLen a) (sortByLenDesc l) := by
  intro l
  induction l with
  | nil => simp [sortByLenDesc]
  | cons x xs ih => exact insertByLenDesc_sorted ih

/-- In a descending-by-length list, the first hit of a predicate is at
least as long as every hit. -/
theorem find?_max_of_sorted {p : Candidate → Bool} :
    ∀ {l : List Candidate} {c : Candidate},
      List.Pairwise (fun a b => keyLen b ≤ keyLen a) l →
      l.find? p = some c → ∀ x ∈ l, p x = true → keyLen x ≤ keyLen c := by
  intro l
  induction l with
  | nil =>
      intro c _ hf
      simp at hf
  | cons y ys ih =>
      intro c hp hf x hx hpx
      rw [List.pairwise_cons] at hp
      by_cases hpy : p y = true
      · rw [List.find?_cons_of_pos _ hpy] at hf
        have hcy : c = y := (Option.some.inj hf).symm
        subst hcy
        rcases List.mem_cons.mp hx with hx | hx
        · subst hx; exact le_refl _
        · exact hp.1 x hx
      · rw [List.find?_cons_of_neg _ (by simp [hpy])] at hf
        rcases List.mem_cons.mp hx with hx | hx
        · subst hx
          exact absurd hpx hpy
        · exact ih hp.2 hf x hx hpx

/-- A successful search splits the list at the first hit. -/
theorem find?_split {p : Candidate → Bool} :
    ∀ {l : List Candidate} {c : Candidate}, l.find? p = some c →
      ∃ l₁ l₂, l = l₁ ++ c :: l₂ ∧ ∀ y ∈ l₁, p y = false := by
  intro l
  induction l with
  | nil =>
      intro c hf
      simp at hf
  | cons y ys ih =>
      intro c hf
      by_cases hpy : p y = true
      · rw [List.find?_cons_of_pos _ hpy] at hf
        have hcy : c = y := (Option.some.inj hf).symm
        subst hcy
        exact ⟨[], ys, rfl, by simp⟩
      · rw [List.find?_cons_of_neg _ (by simp [hpy])] at hf
        obtain ⟨l₁, l₂, h1, h2⟩ := ih hf
        refine ⟨y :: l₁, l₂, by simp [h1], ?_⟩
        intro z hz
        rcases List.mem_cons.mp hz with hz | hz
        · subst hz
          exact Bool.eq_false_iff.mpr hpy
        · exact h2 z hz

/-- A search whose prefix misses and whose pivot hits finds the pivot. -/
theorem find?_of_prefix {p : Candidate → Bool} {c : Candidate} {l₂ : List Candidate}
    (hc : p c = true) :
    ∀ {l₁ : List Candidate}, (∀ y ∈ l₁, p y = false) →
      (l₁ ++ c :: l₂).find? p = some c := by
  intro l₁
  induction l₁ with
  | nil =>
      intro _
      simpa using List.find?_cons_of_pos _ hc
  | cons y ys ih =>
      intro hmiss
      have hy : p y = false := hmiss y (List.mem_cons_self y ys)
      rw [List.cons_append, List.find?_cons_of_neg _ (by simp [hy])]
      exact ih (fun z hz => hmiss z (List.mem_cons_of_mem _ hz))

/-! ## C4 — longest-keyword priority -/

/-- The two-category configuration of the spec's matcher example. -/
def restaurantCats : Categories :=
  { income := [],
    expense := [⟨"cat-1", "Restaurante", ["restaurantes"]⟩,
                ⟨"cat-2", "Resta", []⟩] }

/-- C4: on the spec's example configuration, `"Cena en Restaurantes XYZ"`
is categorized as `"Restaurante"`; in general, whenever two flattened
candidates both whole-word match a description and one is strictly longer,
the returned category is that of a whole-word matching candidate at least
as long as the longer of the two — the shorter candidate can never
outrank it (pass 1 scans candidates in descending keyword length). -/
theorem auto_categorize_priority :
    autoCategorizeTransaction "Cena en Restaurantes XYZ" restaurantCats
      = "Restaurante" ∧
    (∀ (cats : Categories) (d : String) (c1 c2 : Candidate),
      c1 ∈ allCandidates cats → c2 ∈ allCandidates cats →
      candMatchesWord (normalizeString d) c1 = true →
      candMatchesWord (normalizeString d) c2 = true →
      keyLen c2 < keyLen c1 →
      ∃ c : Candidate, c ∈ allCandidates cats ∧
        candMatchesWord (normalizeString d) c = true ∧
        keyLen c1 ≤ keyLen c ∧
        autoCategorizeTransaction d cats = c.category) := by
  constructor
  · decide
  · intro cats d c1 c2 hc1 _ hm1 _ _
    have hc1s : c1 ∈ sortByLenDesc (allCandidates cats) :=
      mem_sortByLenDesc.mpr hc1
    have hsome : ((sortByLenDesc (allCandidates cats)).find?
        (candMatchesWord (normalizeString d))).isSome :=
      List.find?_isSome.mpr ⟨c1, hc1s, hm1⟩
    obtain ⟨c, hfind⟩ := Option.isSome_iff_exists.mp hsome
    refine ⟨c, mem_sortByLenDesc.mp (List.mem_of_find?_eq_some hfind),
      List.find?_some hfind, ?_, ?_⟩
    · exact find?_max_of_sorted (sortByLenDesc_sorted _) hfind c1 hc1s hm1
    · unfold autoCategorizeTransaction
      rw [hfind]

/-- Witness for C4: `"restaurantes"` (length 12) and the category name
`"Cena"` (length 4) both whole-word match, and the longer one's category is
returned. -/
theorem auto_categorize_priority_witness :
    ∃ c : Candidate,
      c ∈ allCandidates
        ⟨[], [⟨"cat-1", "Restaurante", ["restaurantes"]⟩, ⟨"cat-2", "Cena", []⟩]⟩ ∧
      candMatchesWord (normalizeString "Cena en Restaurantes XYZ") c = true ∧
      keyLen ⟨"restaurantes", "Restaurante"⟩ ≤ keyLen c ∧
      autoCategorizeTransaction "Cena en Restaurantes XYZ"
        ⟨[], [⟨"cat-1", "Restaurante", ["restaurantes"]⟩, ⟨"cat-2", "Cena", []⟩]⟩
        = c.category :=
  auto_categorize_priority.2
    ⟨[], [⟨"cat-1", "Restaurante", ["restaurantes"]⟩, ⟨"cat-2", "Cena", []⟩]⟩
    "Cena en Restaurantes XYZ"
    ⟨"restaurantes", "Restaurante"⟩ ⟨"Cena", "Cena"⟩
    (by decide) (by decide) (by decide) (by decide) (by decide)

/-! ## C10 — flattening order breaks length ties -/

/-- Stability of the sort, phrased through exact-length slices: the
candidates of any fixed keyword length appear in the sorted list in their
original (flattening) order. -/
theorem sortByLenDesc_filter_len (L : ℕ) :
    ∀ l : List Candidate,
      (sortByLenDesc l).filter (fun c => keyLen c = L)
        = l.filter (fun c => keyLen c = L) := by
  intro l
  induction l with
  | nil => rfl
  | cons x xs ih =>
      obtain ⟨l₁, l₂, h1, h2, h3⟩ := insertByLenDesc_split x (sortByLenDesc xs)
      have hsplit : (sortByLenDesc xs).filter (fun c => keyLen c = L)
          = l₁.filter (fun c => keyLen c = L) ++ l₂.filter (fun c => keyLen c = L) := by
        rw [h2, List.filter_append]
      show (insertByLenDesc x (sortByLenDesc xs)).filter _ = _
      rw [h1, List.filter_append, List.filter_cons, List.filter_cons]
      by_cases hx : keyLen x = L
      · have hl1 : l₁.filter (fun c => keyLen c = L) = [] := by
          rw [List.filter_eq_nil_iff]
          intro y hy
          have := h3 y hy
          simp only [decide_eq_true_eq]
          omega
        rw [if_pos (by simp [hx]), if_pos (by simp [hx])]
        rw [hl1, List.nil_append]
        rw [hl1, List.nil_append] at hsplit
        rw [← hsplit, ih]
      · rw [if_neg (by simp [hx]), if_neg (by simp [hx])]
        rw [← List.filter_append, ← h2, ih]

/-- C10: when an income-side candidate and an expense-side candidate of
equal keyword length both whole-word match, and no strictly longer
candidate matches (the tie is for the win), the returned category is that
of an income-side candidate — income categories are flattened before
expense categories, and the sort is stable, so on length ties the
flattening order decides. -/
theorem auto_categorize_tie_income_first :
    ∀ (cats : Categories) (d : String) (ci ce : Candidate),
      ci ∈ cats.income.flatMap candidatesOf →
      ce ∈ cats.expense.flatMap candidatesOf →
      candMatchesWord (normalizeString d) ci = true →
      candMatchesWord (normalizeString d) ce = true →
      keyLen ci = keyLen ce →
      (∀ c ∈ allCandidates cats,
        candMatchesWord (normalizeString d) c = true → keyLen c ≤ keyLen ci) →
      ∃ c : Candidate, c ∈ cats.income.flatMap candidatesOf ∧
        candMatchesWord (normalizeString d) c = true ∧
        keyLen c = keyLen ci ∧
        autoCategorizeTransaction d cats = c.category := by
  intro cats d ci ce hci hce hmi hme heq hmax
  have hciAll : ci ∈ allCandidates cats :=
    List.mem_append.mpr (Or.inl hci)
  have hcis : ci ∈ sortByLenDesc (allCandidates cats) :=
    mem_sortByLenDesc.mpr hciAll
  have hsome : ((sortByLenDesc (allCandidates cats)).find?
      (candMatchesWord (normalizeString d))).isSome :=
    List.find?_isSome.mpr ⟨ci, hcis, hmi⟩
  obtain ⟨c, hfind⟩ := Option.isSome_iff_exists.mp hsome
  have hpc : candMatchesWord (normalizeString d) c = true :=
    List.find?_some hfind
  have hcAll : c ∈ allCandidates cats :=
    mem_sortByLenDesc.mp (List.mem_of_find?_eq_some hfind)
  have hcge : keyLen ci ≤ keyLen c :=
    find?_max_of_sorted (sortByLenDesc_sorted _) hfind ci hcis hmi
  have hcle : keyLen c ≤ keyLen ci := hmax c hcAll hpc
  have hcL : keyLen c = keyLen ci := le_antisymm hcle hcge
  obtain ⟨l₁, l₂, hsplit, hmiss⟩ := find?_split hfind
  have hfiltc : (sortByLenDesc (allCandidates cats)).filter
      (fun z => keyLen z = keyLen ci)
      = l₁.filter (fun z => keyLen z = keyLen ci)
        ++ c :: l₂.filter (fun z => keyLen z = keyLen ci) := by
    rw [hsplit, List.filter_append, List.filter_cons, if_pos (by simp [hcL])]
  have hfindFilt : ((sortByLenDesc (allCandidates cats)).filter
      (fun z => keyLen z = keyLen ci)).find?
      (candMatchesWord (normalizeString d)) = some c := by
    rw [hfiltc]
    exact find?_of_prefix hpc
      (fun y hy => hmiss y (List.mem_of_mem_filter hy))
  rw [sortByLenDesc_filter_len] at hfindFilt
  have hallsplit : (allCandidates cats).filter (fun z => keyLen z = keyLen ci)
      = (cats.income.flatMap candidatesOf).filter (fun z => keyLen z = keyLen ci)
        ++ (cats.expense.flatMap candidatesOf).filter
            (fun z => keyLen z = keyLen ci) := by
    unfold allCandidates
    rw [List.filter_append]
  rw [hallsplit, List.find?_append] at hfindFilt
  have hAsome : (((cats.income.flatMap candidatesOf).filter
      (fun z => keyLen z = keyLen ci)).find?
      (candMatchesWord (normalizeString d))).isSome :=
    List.find?_isSome.mpr ⟨ci, List.mem_filter.mpr ⟨hci, by simp⟩, hmi⟩
  obtain ⟨a, ha⟩ := Option.isSome_iff_exists.mp hAsome
  rw [ha, Option.or_some] at hfindFilt
  have hac : a = c := Option.some.inj hfindFilt
  subst hac
  refine ⟨a, ?_, hpc, hcL, ?_⟩
  · exact List.mem_of_mem_filter (List.mem_of_find?_eq_some ha)
  · unfold autoCategorizeTransaction
    rw [hfind]

/-- Witness for C10: income category `"Nomina"` and expense category
`"Gastos"`, both of keyword length six, both matching; the income side
wins. -/
theorem auto_categorize_tie_income_first_witness :
    ∃ c : Candidate,
      c ∈ ([⟨"i1", "Nomina", []⟩] : List Category).flatMap candidatesOf ∧
      candMatchesWord (normalizeString "nomina y gastos") c = true ∧
      keyLen c = keyLen (⟨"Nomina", "Nomina"⟩ : Candidate) ∧
      autoCategorizeTransaction "nomina y gastos"
        ⟨[⟨"i1", "Nomina", []⟩], [⟨"e1", "Gastos", []⟩]⟩ = c.category :=
  auto_categorize_tie_income_first
    ⟨[⟨"i1", "Nomina", []⟩], [⟨"e1", "Gastos", []⟩]⟩
    "nomina y gastos"
    ⟨"Nomina", "Nomina"⟩ ⟨"Gastos", "Gastos"⟩
    (by decide) (by decide) (by decide) (by decide) (by decide) (by decide)

end Nudistracker
